import Mathlib

/-!
Verification of `MVMOO/multi_mixed_optimiser.py` (class `MVMOO`).

The source is shallowly embedded over `List ℚ` rows (numpy float rows become
rational vectors; numpy boolean masks become `List Bool`).  External
collaborators (surrogate models, scipy's `norm.cdf` / `norm.pdf`, `np.sqrt`,
the SLSQP minimiser) are parameters of the embedded functions, exactly at the
call boundary the source uses them.
-/

namespace MVMOO

/-- `np.any(row < pivot)` for one row against the pivot row, i.e. the inner
part of `np.any(costs < costs[next_point_index], axis=1)` in
`is_pareto_efficient` (line 52): true iff some coordinate of `row` is strictly
below the corresponding coordinate of `pivot`. -/
def anyLt (row pivot : List ℚ) : Bool :=
  (row.zip pivot).any fun p => decide (p.1 < p.2)

/-- Boolean-mask indexing `xs[mask]` of numpy (lines 54-55): keep the entries
of `xs` whose mask position is `true`. -/
def filterByMask {α : Type} : List α → List Bool → List α
  | [], _ => []
  | _ :: _, [] => []
  | x :: xs, b :: bs =>
      if b then x :: filterByMask xs bs else filterByMask xs bs

/-- `np.sum` of a boolean mask (line 56): the number of `true` entries. -/
def countTrue (l : List Bool) : ℕ := l.countP fun b => b

/-- The `while next_point_index < len(costs)` loop of `is_pareto_efficient`
(lines 51-56).  State: the surviving original indices `is_efficient`, the
surviving rows `costs`, and `next_point_index`.  One iteration builds the mask
`np.any(costs < costs[next], axis=1)` with position `next` forced to `true`,
filters both arrays by it, and sets
`next := np.sum(mask[:next]) + 1`.  The loop always terminates within
`costs.length` iterations (the measure `costs.length - next` strictly
decreases), so the fuel argument, initialised to `costs.length`, never runs
out; structural fuel is used only to keep the definition kernel-computable. -/
def paretoLoop : ℕ → List ℕ → List (List ℚ) → ℕ → List ℕ
  | 0, is_efficient, _, _ => is_efficient
  | fuel + 1, is_efficient, costs, next =>
    if h : next < costs.length then
      let mask := (costs.map fun row => anyLt row costs[next]).set next true
      paretoLoop fuel (filterByMask is_efficient mask) (filterByMask costs mask)
        (countTrue (mask.take next) + 1)
    else is_efficient

/-- `is_pareto_efficient(costs, return_mask=False)` (lines 39-62, final
`else` branch): the list of surviving original row indices. -/
def is_pareto_efficient_idx (costs : List (List ℚ)) : List ℕ :=
  paretoLoop costs.length (List.range costs.length) costs 0

/-- `is_pareto_efficient(costs, return_mask=True)` (lines 57-60): the length-n
boolean mask holding `true` exactly at the surviving indices. -/
def is_pareto_efficient (costs : List (List ℚ)) : List Bool :=
  (List.range costs.length).map fun i => decide (i ∈ is_pareto_efficient_idx costs)

/-- `paretofront` (lines 64-69): `Y[ind,:]` for
`ind = is_pareto_efficient(Y, return_mask=False)`. -/
def paretofront (Y : List (List ℚ)) : List (List ℚ) :=
  (is_pareto_efficient_idx Y).map fun i => Y.getD i []

/-- Weak (componentwise) domination for minimisation: same length and `a` is
componentwise `≤ b`. -/
def weakDom (a b : List ℚ) : Prop := List.Forall₂ (· ≤ ·) a b

/-- Standard Pareto domination for minimisation (spec §3): `a` dominates `b`
iff `a ≤ b` componentwise with at least one strict inequality; for
equal-length vectors this is equivalent to componentwise `≤` plus `a ≠ b`. -/
def strictDom (a b : List ℚ) : Prop := weakDom a b ∧ a ≠ b

instance : DecidablePred fun p : List ℚ × List ℚ => weakDom p.1 p.2 := by
  intro p
  unfold weakDom
  infer_instance

instance (a b : List ℚ) : Decidable (weakDom a b) := by
  unfold weakDom
  infer_instance

instance (a b : List ℚ) : Decidable (strictDom a b) := by
  unfold strictDom
  infer_instance

example : is_pareto_efficient [[1, 1], [1, 1]] = [true, false] := by decide

example :
    is_pareto_efficient [[1, 2], [2, 1], [mkRat 3 2, mkRat 3 2], [3, 3], [mkRat 1 2, mkRat 1 2]] =
      [false, false, false, false, true] := by decide

example : is_pareto_efficient [[1, 2], [2, 1]] = [true, true] := by decide

/-! Basic facts relating the numpy-style boolean tests to domination. -/

theorem anyLt_self (a : List ℚ) : anyLt a a = false := by
  induction a with
  | nil => rfl
  | cons x xs ih => simpa [anyLt, List.zip_cons_cons] using ih

theorem not_weakDom_of_anyLt {a b : List ℚ} (h : anyLt a b = true) : ¬ weakDom b a := by
  intro hw
  obtain ⟨p, hp, hlt⟩ := List.any_eq_true.1 h
  obtain ⟨i, hi, rfl⟩ := List.mem_iff_getElem.1 hp
  have hi1 : i < a.length := lt_of_lt_of_le hi (by simp [List.length_zip])
  have hi2 : i < b.length := lt_of_lt_of_le hi (by simp [List.length_zip])
  have hle : b[i] ≤ a[i] := by
    have := (List.forall₂_iff_get.1 hw).2 i (by simpa using hi2) (by simpa using hi1)
    simpa using this
  simp only [List.getElem_zip] at hlt
  exact absurd (of_decide_eq_true hlt) (not_lt.2 hle)

theorem weakDom_of_anyLt_eq_false {a b : List ℚ} (hlen : a.length = b.length)
    (h : anyLt a b = false) : weakDom b a := by
  refine List.forall₂_iff_get.2 ⟨hlen.symm, ?_⟩
  intro i h₁ h₂
  have hiz : i < (a.zip b).length := by simp [List.length_zip]; omega
  have hmem : (a[i], b[i]) ∈ a.zip b := by
    have := List.getElem_mem (l := a.zip b) (n := i) hiz
    rwa [List.getElem_zip] at this
  have := List.any_eq_false.1 h _ hmem
  simp only [decide_eq_false_iff_not, not_lt] at this
  simpa using this

theorem weakDom_trans : ∀ {a b c : List ℚ}, weakDom a b → weakDom b c → weakDom a c := by
  intro a b c hab
  induction hab generalizing c with
  | nil => intro hbc; cases hbc; exact List.Forall₂.nil
  | cons h t ih =>
      intro hbc
      cases hbc with
      | cons h2 t2 => exact List.Forall₂.cons (le_trans h h2) (ih t2)

theorem weakDom_length {a b : List ℚ} (h : weakDom a b) : a.length = b.length :=
  List.Forall₂.length_eq h

/-! Facts about boolean-mask filtering. -/

theorem filterByMask_map {α β : Type} (f : α → β) :
    ∀ (l : List α) (mask : List Bool),
      filterByMask (l.map f) mask = (filterByMask l mask).map f
  | [], _ => by simp [filterByMask]
  | _ :: _, [] => by simp [filterByMask]
  | x :: xs, b :: bs => by
      cases b <;> simp [filterByMask, filterByMask_map f xs bs]

theorem filterByMask_self_map {α : Type} (f : α → Bool) :
    ∀ l : List α, filterByMask l (l.map f) = l.filter f
  | [] => rfl
  | x :: xs => by
      cases hx : f x <;> simp [filterByMask, List.filter_cons, hx, filterByMask_self_map f xs]

theorem filterByMask_decomp {α : Type} (f : α → Bool) :
    ∀ (l : List α) (i : ℕ) (h : i < l.length),
      filterByMask l ((l.map f).set i true) =
        (l.take i).filter f ++ l[i] :: (l.drop (i + 1)).filter f
  | x :: xs, 0, _ => by
      simp [filterByMask, filterByMask_self_map]
  | x :: xs, i + 1, h => by
      have ih := filterByMask_decomp f xs i (by simpa using h)
      cases hx : f x <;>
        simp [filterByMask, List.filter_cons, hx, ih]

theorem countTrue_take_mask {α : Type} (l : List α) (f : α → Bool) (i : ℕ) :
    countTrue (((l.map f).set i true).take i) = ((l.take i).filter f).length := by
  have h1 : ((l.map f).set i true).take i = (l.map f).take i := by
    rw [List.set_take]
    exact List.set_eq_of_length_le (by simp [List.length_take])
  rw [countTrue, h1, ← List.map_take, List.countP_map]
  have hcomp : ((fun b => b) ∘ f) = f := rfl
  rw [hcomp, List.countP_eq_length_filter]

theorem filterByMask_replicate_true {α : Type} :
    ∀ (l : List α) (n : ℕ), l.length ≤ n →
      filterByMask l (List.replicate n true) = l
  | [], n, _ => by cases n <;> rfl
  | x :: xs, n + 1, h => by
      simp only [List.replicate_succ, filterByMask, if_pos]
      rw [filterByMask_replicate_true xs n (by simpa using h)]

theorem range_map_getD {α : Type} (l : List α) (d : α) :
    (List.range l.length).map (fun i => l.getD i d) = l := by
  apply List.ext_getElem (by simp)
  intro n h₁ h₂
  simp [List.getD_eq_getElem?_getD, List.getElem?_eq_getElem h₂]

/-! The loop invariant of `is_pareto_efficient`. -/

/-- Row lookup `costs[a,:]` in the original matrix. -/
def rowOf (C : List (List ℚ)) (a : ℕ) : List ℚ := C.getD a []

theorem rowOf_length (C : List (List ℚ)) (m : ℕ) (hm : ∀ r ∈ C, r.length = m)
    (a : ℕ) (ha : a < C.length) : (rowOf C a).length = m := by
  rw [rowOf, List.getD_eq_getElem _ _ ha]
  exact hm _ (List.getElem_mem ha)

theorem paretoLoop_succ_pos (fuel : ℕ) (E : List ℕ) (costs : List (List ℚ)) (next : ℕ)
    (h : next < costs.length) :
    paretoLoop (fuel + 1) E costs next =
      paretoLoop fuel
        (filterByMask E ((costs.map fun row => anyLt row costs[next]).set next true))
        (filterByMask costs ((costs.map fun row => anyLt row costs[next]).set next true))
        (countTrue (((costs.map fun row => anyLt row costs[next]).set next true).take next) + 1) := by
  simp [paretoLoop, h]

theorem paretoLoop_succ_neg (fuel : ℕ) (E : List ℕ) (costs : List (List ℚ)) (next : ℕ)
    (h : ¬ next < costs.length) :
    paretoLoop (fuel + 1) E costs next = E := by
  simp [paretoLoop, h]

theorem paretoLoop_invariant (C : List (List ℚ)) (m : ℕ) (hm : ∀ r ∈ C, r.length = m) :
    ∀ (fuel : ℕ) (E : List ℕ) (next : ℕ),
      E.length - next ≤ fuel →
      (∀ a ∈ E, a < C.length) →
      E.Nodup →
      (∀ a b, a ∈ E.take next → b ∈ E → a ≠ b → anyLt (rowOf C b) (rowOf C a) = true) →
      (∀ i, i < C.length → i ∉ E → ∃ a, a ∈ E ∧ weakDom (rowOf C a) (rowOf C i)) →
      (paretoLoop fuel E (E.map (rowOf C)) next).Sublist E ∧
      (∀ a b, a ∈ paretoLoop fuel E (E.map (rowOf C)) next →
          b ∈ paretoLoop fuel E (E.map (rowOf C)) next → a ≠ b →
          anyLt (rowOf C b) (rowOf C a) = true) ∧
      (∀ i, i < C.length → i ∉ paretoLoop fuel E (E.map (rowOf C)) next →
          ∃ a, a ∈ paretoLoop fuel E (E.map (rowOf C)) next ∧
            weakDom (rowOf C a) (rowOf C i)) := by
  intro fuel
  induction fuel with
  | zero =>
      intro E next hfuel hb hnd h3 h4
      have hnext : E.length ≤ next := by omega
      refine ⟨List.Sublist.refl E, ?_, h4⟩
      intro a b ha hb2 hab
      exact h3 a b (by rwa [List.take_of_length_le hnext]) hb2 hab
  | succ fuel ih =>
      intro E next hfuel hb hnd h3 h4
      by_cases h : next < (E.map (rowOf C)).length
      · -- loop body executes
        have hE : next < E.length := by simpa using h
        rw [paretoLoop_succ_pos fuel E (E.map (rowOf C)) next h]
        set nextIdx := E[next] with hnextIdx
        set g : ℕ → Bool := fun a => anyLt (rowOf C a) (rowOf C nextIdx) with hg
        have hpiv : (E.map (rowOf C))[next] = rowOf C nextIdx := by
          simp [hnextIdx]
        have hmask : ((E.map (rowOf C)).map fun row => anyLt row ((E.map (rowOf C))[next]))
            = E.map g := by
          rw [List.map_map, hpiv]
          rfl
        set P : List ℕ := (E.take next).filter g with hP
        set S : List ℕ := (E.drop (next + 1)).filter g with hS
        have hE'decomp : filterByMask E ((E.map g).set next true) = P ++ nextIdx :: S := by
          rw [filterByMask_decomp g E next hE]
        have hEdecomp : E = E.take next ++ nextIdx :: E.drop (next + 1) := by
          conv_lhs => rw [← List.take_append_drop next E]
          rw [List.drop_eq_getElem_cons hE]
        set Ef : List ℕ := filterByMask E ((E.map g).set next true) with hEf
        have hsub : Ef.Sublist E := by
          rw [hE'decomp]
          conv_rhs => rw [hEdecomp]
          exact (List.filter_sublist _).append ((List.filter_sublist _).cons₂ nextIdx)
        have hnextMem : nextIdx ∈ Ef := by
          rw [hE'decomp]
          exact List.mem_append.2 (Or.inr (List.mem_cons_self _ _))
        have hcosts : filterByMask (E.map (rowOf C)) ((E.map g).set next true)
            = Ef.map (rowOf C) := by
          rw [filterByMask_map, hEf]
        have hcount : countTrue (((E.map g).set next true).take next) = P.length := by
          rw [countTrue_take_mask E g next, hP]
        -- fact: every row removed this step is weakly dominated by the pivot row
        have hFact : ∀ x, x ∈ E → x ∉ Ef → weakDom (rowOf C nextIdx) (rowOf C x) := by
          intro x hxE hxEf
          have hxne : x ≠ nextIdx := by
            intro he
            exact hxEf (he ▸ hnextMem)
          have hxsplit : x ∈ E.take next ∨ x ∈ E.drop (next + 1) := by
            conv at hxE => rw [hEdecomp]
            rcases List.mem_append.1 hxE with hT | hCD
            · exact Or.inl hT
            · rcases List.mem_cons.1 hCD with he | hD
              · exact absurd he hxne
              · exact Or.inr hD
          have hgx : g x = false := by
            cases hgxv : g x with
            | false => rfl
            | true =>
                exfalso
                apply hxEf
                rw [hE'decomp]
                rcases hxsplit with hT | hD
                · exact List.mem_append.2 (Or.inl (List.mem_filter.2 ⟨hT, hgxv⟩))
                · exact List.mem_append.2
                    (Or.inr (List.mem_cons.2 (Or.inr (List.mem_filter.2 ⟨hD, hgxv⟩))))
          have hlen : (rowOf C x).length = (rowOf C nextIdx).length := by
            rw [rowOf_length C m hm x (hb x hxE),
              rowOf_length C m hm nextIdx (hb nextIdx (List.getElem_mem hE))]
          exact weakDom_of_anyLt_eq_false hlen hgx
        rw [hmask, hcosts, hcount]
        have hconc := ih Ef (P.length + 1)
          (by
            have hlenEf : Ef.length = P.length + 1 + S.length := by
              rw [hE'decomp]; simp; omega
            have hlenS : S.length ≤ E.length - (next + 1) := by
              rw [hS]
              calc ((E.drop (next + 1)).filter g).length
                  ≤ (E.drop (next + 1)).length := List.length_filter_le _ _
                _ = E.length - (next + 1) := List.length_drop _ _
            omega)
          (fun a ha => hb a (hsub.subset ha))
          (hsub.nodup hnd)
          (by
            intro a b ha hbmem hab
            have htake : Ef.take (P.length + 1) = P ++ [nextIdx] := by
              rw [hE'decomp, List.append_cons]
              exact List.take_left' (by simp)
            rw [htake] at ha
            rcases List.mem_append.1 ha with haP | haN
            · exact h3 a b (List.mem_of_mem_filter haP) (hsub.subset hbmem) hab
            · have ha' : a = nextIdx := List.mem_singleton.1 haN
              subst ha'
              rw [hE'decomp] at hbmem
              rcases List.mem_append.1 hbmem with hbP | hbCD
              · exact (List.mem_filter.1 hbP).2
              · rcases List.mem_cons.1 hbCD with he | hbS
                · exact absurd he.symm hab
                · exact (List.mem_filter.1 hbS).2)
          (by
            intro i hi hiEf
            by_cases hiE : i ∈ E
            · exact ⟨nextIdx, hnextMem, hFact i hiE hiEf⟩
            · obtain ⟨a, haE, hw⟩ := h4 i hi hiE
              by_cases haEf : a ∈ Ef
              · exact ⟨a, haEf, hw⟩
              · exact ⟨nextIdx, hnextMem, weakDom_trans (hFact a haE haEf) hw⟩)
        exact ⟨hconc.1.trans hsub, hconc.2.1, hconc.2.2⟩
      · -- loop exits
        rw [paretoLoop_succ_neg fuel E (E.map (rowOf C)) next h]
        have hnext : E.length ≤ next := by simpa using not_lt.1 h
        refine ⟨List.Sublist.refl E, ?_, h4⟩
        intro a b ha hb2 hab
        exact h3 a b (by rwa [List.take_of_length_le hnext]) hb2 hab

/-- The three facts the claims need about the index list computed by
`is_pareto_efficient`: it is a subsequence of `range n`, its members are
pairwise mutually non-dominated in the strong sense (each beats each other
somewhere), and every dropped index is weakly dominated by a kept one. -/
theorem pareto_idx_spec (costs : List (List ℚ)) (m : ℕ) (hm : ∀ r ∈ costs, r.length = m) :
    (is_pareto_efficient_idx costs).Sublist (List.range costs.length) ∧
    (∀ a b, a ∈ is_pareto_efficient_idx costs → b ∈ is_pareto_efficient_idx costs → a ≠ b →
        anyLt (rowOf costs b) (rowOf costs a) = true) ∧
    (∀ i, i < costs.length → i ∉ is_pareto_efficient_idx costs →
        ∃ a, a ∈ is_pareto_efficient_idx costs ∧ weakDom (rowOf costs a) (rowOf costs i)) := by
  have hcosts : (List.range costs.length).map (rowOf costs) = costs := by
    rw [show rowOf costs = fun i => costs.getD i [] from rfl]
    exact range_map_getD costs []
  have h := paretoLoop_invariant costs m hm costs.length (List.range costs.length) 0
    (by simp) (fun a ha => List.mem_range.1 ha) (List.nodup_range _)
    (by intro a b ha; simp at ha)
    (fun i hi hnot => absurd (List.mem_range.2 hi) hnot)
  rw [hcosts] at h
  simpa [is_pareto_efficient_idx] using h

theorem mask_length (costs : List (List ℚ)) :
    (is_pareto_efficient costs).length = costs.length := by
  simp [is_pareto_efficient]

theorem mask_getD_iff (costs : List (List ℚ)) (i : ℕ) (hi : i < costs.length) :
    ((is_pareto_efficient costs).getD i false = true ↔ i ∈ is_pareto_efficient_idx costs) := by
  have hlen : i < (is_pareto_efficient costs).length := by
    rw [mask_length]; exact hi
  rw [List.getD_eq_getElem _ _ hlen]
  simp [is_pareto_efficient]

/-! Idempotence machinery: a matrix whose rows pairwise beat each other
somewhere passes through the loop unchanged. -/

theorem countTrue_take_replicate (n i : ℕ) :
    countTrue ((List.replicate n true).take i) = min i n := by
  rw [countTrue, List.countP_eq_length.2]
  · simp [List.length_take]
  · intro b hb
    have := List.eq_of_mem_replicate (List.mem_of_mem_take hb)
    simp [this]

theorem mask_replicate_of_mutual (C : List (List ℚ))
    (hmut : ∀ k l (hk : k < C.length) (hl : l < C.length), k ≠ l → anyLt C[l] C[k] = true)
    (next : ℕ) (hnext : next < C.length) :
    (C.map fun row => anyLt row C[next]).set next true = List.replicate C.length true := by
  apply List.ext_getElem (by simp)
  intro n h₁ h₂
  have hn : n < C.length := by simpa using h₂
  rw [List.getElem_set]
  by_cases he : next = n
  · simp [he]
  · have := hmut next n hnext hn (fun hc => he hc)
    simp [this]

theorem paretoLoop_of_mutual (C : List (List ℚ))
    (hmut : ∀ k l (hk : k < C.length) (hl : l < C.length), k ≠ l → anyLt C[l] C[k] = true) :
    ∀ (fuel : ℕ) (E : List ℕ) (next : ℕ), E.length ≤ C.length →
      paretoLoop fuel E C next = E := by
  intro fuel
  induction fuel with
  | zero => intro E next _; rfl
  | succ fuel ih =>
      intro E next hlen
      by_cases h : next < C.length
      · rw [paretoLoop_succ_pos fuel E C next h,
          mask_replicate_of_mutual C hmut next h,
          filterByMask_replicate_true E C.length hlen,
          filterByMask_replicate_true C C.length le_rfl,
          countTrue_take_replicate, Nat.min_eq_left (Nat.le_of_lt h)]
        exact ih E (next + 1) hlen
      · exact paretoLoop_succ_neg fuel E C next h

theorem is_pareto_efficient_of_mutual (C : List (List ℚ))
    (hmut : ∀ k l (hk : k < C.length) (hl : l < C.length), k ≠ l → anyLt C[l] C[k] = true) :
    is_pareto_efficient C = List.replicate C.length true := by
  have hidx : is_pareto_efficient_idx C = List.range C.length := by
    rw [is_pareto_efficient_idx]
    exact paretoLoop_of_mutual C hmut C.length (List.range C.length) 0 (by simp)
  rw [is_pareto_efficient, hidx]
  apply List.ext_getElem (by simp)
  intro n h₁ h₂
  have hn : n < C.length := by simpa using h₂
  simp [List.mem_range, hn]

/-- The rows selected by `paretofront` pairwise beat each other somewhere. -/
theorem paretofront_mutual (costs : List (List ℚ)) (m : ℕ) (hm : ∀ r ∈ costs, r.length = m) :
    ∀ k l (hk : k < (paretofront costs).length) (hl : l < (paretofront costs).length),
      k ≠ l → anyLt (paretofront costs)[l] (paretofront costs)[k] = true := by
  obtain ⟨hsubl, hmut, _⟩ := pareto_idx_spec costs m hm
  have hnd : (is_pareto_efficient_idx costs).Nodup := hsubl.nodup (List.nodup_range _)
  intro k l hk hl hkl
  have hkI : k < (is_pareto_efficient_idx costs).length := by
    simpa [paretofront] using hk
  have hlI : l < (is_pareto_efficient_idx costs).length := by
    simpa [paretofront] using hl
  have hne : (is_pareto_efficient_idx costs)[k] ≠ (is_pareto_efficient_idx costs)[l] := by
    intro he
    exact hkl (hnd.getElem_inj_iff.1 he)
  have hres := hmut ((is_pareto_efficient_idx costs)[k]) ((is_pareto_efficient_idx costs)[l])
    (List.getElem_mem hkI) (List.getElem_mem hlI) hne
  simpa [paretofront, rowOf] using hres

/-! Claim theorems about `is_pareto_efficient`. -/

/-- C1 (amended): for every finite costs matrix, no selected point is
(standard-)dominated by another selected point, every unselected point is
weakly dominated (componentwise `≤`, allowing equality) by at least one
selected point, and reapplying `is_pareto_efficient` to the selected rows
returns an all-true mask.  (The original claim asserted standard domination
of every unselected point; duplicate rows refute that, see the
counterexample.) -/
theorem is_pareto_efficient_correct (costs : List (List ℚ)) (m : ℕ)
    (hm : ∀ r ∈ costs, r.length = m) :
    (∀ a b, a < costs.length → b < costs.length → a ≠ b →
        (is_pareto_efficient costs).getD a false = true →
        (is_pareto_efficient costs).getD b false = true →
        ¬ strictDom (costs.getD a []) (costs.getD b [])) ∧
    (∀ i, i < costs.length → (is_pareto_efficient costs).getD i false = false →
        ∃ a, a < costs.length ∧ (is_pareto_efficient costs).getD a false = true ∧
          weakDom (costs.getD a []) (costs.getD i [])) ∧
    is_pareto_efficient (paretofront costs) =
      List.replicate (paretofront costs).length true := by
  obtain ⟨hsubl, hmut, hcov⟩ := pareto_idx_spec costs m hm
  refine ⟨?_, ?_, ?_⟩
  · intro a b ha hb hab hma hmb hsd
    have hmem_a := (mask_getD_iff costs a ha).1 hma
    have hmem_b := (mask_getD_iff costs b hb).1 hmb
    have hlt := hmut a b hmem_a hmem_b hab
    exact not_weakDom_of_anyLt hlt hsd.1
  · intro i hi hmaski
    have hnotmem : i ∉ is_pareto_efficient_idx costs := by
      intro hmem
      rw [(mask_getD_iff costs i hi).2 hmem] at hmaski
      exact absurd hmaski (by decide)
    obtain ⟨a, haidx, hw⟩ := hcov i hi hnotmem
    have ha : a < costs.length := List.mem_range.1 (hsubl.subset haidx)
    exact ⟨a, ha, (mask_getD_iff costs a ha).2 haidx, hw⟩
  · exact is_pareto_efficient_of_mutual (paretofront costs) (paretofront_mutual costs m hm)

theorem is_pareto_efficient_correct_witness :
    is_pareto_efficient (paretofront [[(1:ℚ), 2], [2, 1]]) =
      List.replicate (paretofront [[(1:ℚ), 2], [2, 1]]).length true :=
  (is_pareto_efficient_correct [[(1:ℚ), 2], [2, 1]] 2 (by decide)).2.2

/-- C1 counterexample: with two identical rows `[1,1]`, index 1 is unselected
but is not standard-dominated by any selected index (the only selected row is
the equal row, and equal rows do not dominate each other). -/
theorem pareto_strict_coverage_counterexample :
    (is_pareto_efficient [[(1:ℚ), 1], [1, 1]]).getD 1 false = false ∧
    ¬ ∃ a, a < 2 ∧ (is_pareto_efficient [[(1:ℚ), 1], [1, 1]]).getD a false = true ∧
        strictDom ([[(1:ℚ), 1], [1, 1]].getD a []) ([[(1:ℚ), 1], [1, 1]].getD 1 []) := by
  refine ⟨by decide, ?_⟩
  rintro ⟨a, ha, hmask, hsd⟩
  interval_cases a
  · exact hsd.2 rfl
  · exact absurd hmask (by decide)

/-- C2 counterexample: on `costs = [[1,2],[2,1],[1.5,1.5],[3,3],[0.5,0.5]]`
the mask is not true at indices 0, 1 and 4 as claimed; indeed point 4 =
`[0.5, 0.5]` strictly dominates point 0 (and every other point). -/
theorem scenarioA_counterexample :
    is_pareto_efficient [[1, 2], [2, 1], [mkRat 3 2, mkRat 3 2], [3, 3], [mkRat 1 2, mkRat 1 2]] ≠
      [true, true, false, false, true] ∧
    strictDom [mkRat 1 2, mkRat 1 2] [(1:ℚ), 2] := by
  constructor
  · decide
  · constructor
    · refine List.Forall₂.cons (by decide) (List.Forall₂.cons (by decide) List.Forall₂.nil)
    · decide

/-- C2 (amended): on `costs = [[1,2],[2,1],[1.5,1.5],[3,3],[0.5,0.5]]` the
returned mask is true exactly at index 4 (point 4 dominates all the others),
not at indices 0, 1 and 4. -/
theorem scenarioA_mask :
    is_pareto_efficient [[1, 2], [2, 1], [mkRat 3 2, mkRat 3 2], [3, 3], [mkRat 1 2, mkRat 1 2]] =
      [false, false, false, false, true] := by
  decide

/-- C8 (amended): two equal rows are never both retained: any two distinct
selected indices hold distinct rows.  (The original claim said equal rows are
both retained; the counterexample shows the second duplicate is dropped.) -/
theorem pareto_no_equal_rows_selected (costs : List (List ℚ)) (m : ℕ)
    (hm : ∀ r ∈ costs, r.length = m) (a b : ℕ) (ha : a < costs.length)
    (hb : b < costs.length) (hab : a ≠ b)
    (hsa : (is_pareto_efficient costs).getD a false = true)
    (hsb : (is_pareto_efficient costs).getD b false = true) :
    costs.getD a [] ≠ costs.getD b [] := by
  obtain ⟨hsubl, hmut, _⟩ := pareto_idx_spec costs m hm
  have hmem_a := (mask_getD_iff costs a ha).1 hsa
  have hmem_b := (mask_getD_iff costs b hb).1 hsb
  intro he
  have hlt := hmut a b hmem_a hmem_b hab
  simp only [rowOf] at hlt
  rw [← he, anyLt_self] at hlt
  exact Bool.false_ne_true hlt

theorem pareto_no_equal_rows_selected_witness :
    [[(1:ℚ), 2], [2, 1]].getD 0 [] ≠ [[(1:ℚ), 2], [2, 1]].getD 1 [] :=
  pareto_no_equal_rows_selected [[(1:ℚ), 2], [2, 1]] 2 (by decide) 0 1
    (by decide) (by decide) (by decide) (by decide) (by decide)

/-- C8 counterexample: for the duplicate matrix `[[1,1],[1,1]]` the mask is
`[true, false]`: the equal rows are not both retained, only the
first-encountered one is. -/
theorem pareto_duplicate_rows_counterexample :
    is_pareto_efficient [[(1:ℚ), 1], [1, 1]] ≠ [true, true] ∧
    is_pareto_efficient [[(1:ℚ), 1], [1, 1]] = [true, false] := by
  decide

/-! `generatemodels` (lines 21-37).  The external `fitmodel` call is
abstracted: `fitOne i` is the model stored in `self.model` after fitting
column `i`; only the shape of the returned bank is at stake. -/

/-- The `for i in range(nobj)` loop of the `scale is True` branch
(lines 30-33): every column is fitted and appended, and the list is returned
after the loop ends. -/
def genLoopScale {M : Type} (fitOne : ℕ → M) : List ℕ → List M → List M
  | [], acc => acc
  | i :: rest, acc => genLoopScale fitOne rest (acc ++ [fitOne i])

/-- The `for i in range(nobj)` loop of the `scale` = False branch
(lines 34-37).  The `return models` statement is indented inside the loop
body, so the function returns right after the first iteration; for
`nobj = 0` the loop never runs and the function falls off its end, which in
Python returns `None` (modelled as `none`). -/
def genLoopNoScale {M : Type} (fitOne : ℕ → M) : List ℕ → List M → Option (List M)
  | [], _ => none
  | i :: _, acc => some (acc ++ [fitOne i])

/-- `generatemodels(X, Y, scale, variance)` (lines 21-37) with
`nobj = np.shape(Y)[1]`; input/output scaling is external and does not
change the shape of the result. -/
def generatemodels {M : Type} (fitOne : ℕ → M) (nobj : ℕ) (scale : Bool) :
    Option (List M) :=
  if scale then some (genLoopScale fitOne (List.range nobj) [])
  else genLoopNoScale fitOne (List.range nobj) []

theorem genLoopScale_length {M : Type} (fitOne : ℕ → M) :
    ∀ (l : List ℕ) (acc : List M),
      (genLoopScale fitOne l acc).length = acc.length + l.length
  | [], acc => by simp [genLoopScale]
  | i :: rest, acc => by
      rw [genLoopScale, genLoopScale_length fitOne rest]
      simp
      omega

/-- C3 (code bug): with `scale=True` the returned bank has one fitted model
per column of `Y`, but in the `scale=False` branch (the constraint-model
call) the `return` sits inside the loop, so the bank has exactly one model
whenever the constraint matrix has at least one column, never `k` models for
`k ≥ 2`; for zero columns the function returns `None`. -/
theorem generatemodels_column_counts {M : Type} (fitOne : ℕ → M) :
    (∀ nobj, (generatemodels fitOne nobj true).map List.length = some nobj) ∧
    (∀ k, generatemodels fitOne (k + 1) false = some [fitOne 0]) ∧
    generatemodels fitOne 0 false = none := by
  refine ⟨?_, ?_, rfl⟩
  · intro nobj
    simp [generatemodels, genLoopScale_length]
  · intro k
    rw [generatemodels, if_neg (by simp), List.range_succ_eq_map]
    rfl

/-! The post-fit sanity check of `multinextcondition` (lines 532-538). -/

/-- A float-like predicted mean: either a finite rational or `nan`
(standing for any non-finite value). -/
inductive FVal : Type
  | nan : FVal
  | num : ℚ → FVal

/-- IEEE `==` against another value: NaN compares unequal to everything,
itself included. -/
def feq : FVal → FVal → Bool
  | FVal.num a, FVal.num b => decide (a = b)
  | _, _ => false

def fvIsFinite : FVal → Bool
  | FVal.nan => false
  | FVal.num _ => true

/-- The guard `np.any(means == np.nan)` (line 536), read generously as an
elementwise comparison of every predicted mean against NaN.  (The literal
Python expression compares the list object itself with the float, which is
likewise always `False`.) -/
def nanRefitGuard (means : List FVal) : Bool :=
  means.any fun x => feq x FVal.nan

/-- Lines 536-538: refit the bank at variance 0.1 only when the guard fires,
otherwise keep the current bank. -/
def postFitCheck {M : Type} (refitLowVar : M) (current : M) (means : List FVal) : M :=
  if nanRefitGuard means then refitLowVar else current

theorem feq_nan (x : FVal) : feq x FVal.nan = false := by
  cases x <;> rfl

theorem nanRefitGuard_false (means : List FVal) : nanRefitGuard means = false := by
  rw [nanRefitGuard, List.any_eq_false]
  intro x _
  simp [feq_nan x]

/-- C4 (code bug): the check `np.any(means == np.nan)` is always false —
NaN compares unequal to everything — so the claimed low-variance refit never
happens, not even when a predicted mean is the non-finite NaN. -/
theorem postFitCheck_never_refits :
    (∀ (M : Type) (refitLowVar current : M) (means : List FVal),
        postFitCheck refitLowVar current means = current) ∧
    fvIsFinite FVal.nan = false := by
  refine ⟨?_, rfl⟩
  intro M r c means
  rw [postFitCheck, nanRefitGuard_false]
  simp

/-! The model-fitting retry ladder of `multinextcondition` (lines 513-528).
The external `generatemodels` call is treated as an atomic fallible
operation `fit kernel variance`, returning the fitted bank or raising. -/

/-- One `try: self.models = generatemodels(...) except: print(...)` attempt
of the variance loop (lines 524-528): overwrite the bank on success, keep
the previous state on exception. -/
def tryFit {M : Type} (fit : String → ℚ → Except Unit M) (kernel : String)
    (variance : ℚ) (current : Option M) : Option M :=
  match fit kernel variance with
  | Except.ok mdl => some mdl
  | Except.error _ => current

/-- Lines 513-528: first `k_type := matern3` at the default variance 1.0; on
exception retry once with matern5; on a second exception loop over the fixed
variances `[0.1, 1, 2, 10]` (with `k_type` still matern5), each attempt
caught independently.  The phase is a total function of the fit oracle: no
exception escapes it. -/
def fitLadder {M : Type} (fit : String → ℚ → Except Unit M) (initial : Option M) :
    Option M :=
  match fit "matern3" 1 with
  | Except.ok mdl => some mdl
  | Except.error _ =>
    match fit "matern5" 1 with
    | Except.ok mdl => some mdl
    | Except.error _ =>
        [mkRat 1 10, 1, 2, 10].foldl (fun cur v => tryFit fit "matern5" v cur) initial

/-- C5: the fitting phase tries matern3 first, falls back to matern5, then
to the fixed variances `[0.1, 1, 2, 10]`, each attempt independent and
overwriting the bank on success; when every attempt raises, nothing
propagates and the previous (possibly unset) bank is kept. -/
theorem fitLadder_spec {M : Type} (fit : String → ℚ → Except Unit M)
    (initial : Option M) :
    (∀ mdl, fit "matern3" 1 = Except.ok mdl → fitLadder fit initial = some mdl) ∧
    (∀ mdl, fit "matern3" 1 = Except.error () → fit "matern5" 1 = Except.ok mdl →
        fitLadder fit initial = some mdl) ∧
    (∀ mdl, fit "matern3" 1 = Except.error () → fit "matern5" 1 = Except.error () →
        fit "matern5" (mkRat 1 10) = Except.ok mdl →
        fit "matern5" 1 = Except.error () → fit "matern5" 2 = Except.error () →
        fit "matern5" 10 = Except.error () →
        fitLadder fit initial = some mdl) ∧
    (fit "matern3" 1 = Except.error () → fit "matern5" 1 = Except.error () →
        (∀ v ∈ [mkRat 1 10, (1:ℚ), 2, 10], fit "matern5" v = Except.error ()) →
        fitLadder fit initial = initial) := by
  refine ⟨?_, ?_, ?_, ?_⟩
  · intro mdl h1
    rw [fitLadder, h1]
  · intro mdl h1 h2
    rw [fitLadder, h1, h2]
  · intro mdl h1 h2 h01 hv1 hv2 hv10
    rw [fitLadder, h1, h2]
    simp [List.foldl, tryFit, h01, hv1, hv2, hv10]
  · intro h1 h2 hall
    rw [fitLadder, h1, h2]
    simp [List.foldl, tryFit,
      hall (mkRat 1 10) (by simp), hall 1 (by simp), hall 2 (by simp),
      hall 10 (by simp)]

theorem fitLadder_spec_witness :
    fitLadder (fun k _ => if k = "matern3" then Except.ok 7 else Except.error ())
      (none : Option ℕ) = some 7 :=
  (fitLadder_spec (fun k _ => if k = "matern3" then Except.ok 7 else Except.error ())
    none).1 7 (by simp)

/-! The `algorithm` dispatch of the two mixed optimisers. -/

/-- Outcome of a Python call: a returned value, a raised
`NotImplementedError`, or Python's implicit `return None`. -/
inductive PyOutcome (α : Type) : Type
  | value : α → PyOutcome α
  | raiseNotImplemented : PyOutcome α
  | returnNone : PyOutcome α
deriving DecidableEq

/-- The dispatch skeleton of `EIMmixedoptimiser` (lines 308-379): two
recognised names, anything else hits the final
`raise NotImplementedError()` (lines 378-379).  Branch bodies are abstracted
as the supplied values. -/
def EIMmixedoptimiser_dispatch {α : Type} (vRandom vRandomLocal : α)
    (algorithm : String) : PyOutcome α :=
  if algorithm = "Random" then PyOutcome.value vRandom
  else if algorithm = "Random Local" then PyOutcome.value vRandomLocal
  else PyOutcome.raiseNotImplemented

/-- The dispatch skeleton of `AEIMmixedoptimiser` (lines 383-507): four
recognised names ('Random Local' raises when constraints are present, line
422); an unrecognised name falls through the whole `if/elif` chain to the
bare `return` at line 507 — Python returns `None`, nothing is raised. -/
def AEIMmixedoptimiser_dispatch {α : Type} (constraints : Bool)
    (vRandom vRandomLocal vShgo vDe : α) (algorithm : String) : PyOutcome α :=
  if algorithm = "Random" then PyOutcome.value vRandom
  else if algorithm = "Random Local" then
    (if constraints then PyOutcome.raiseNotImplemented else PyOutcome.value vRandomLocal)
  else if algorithm = "SHGO" then PyOutcome.value vShgo
  else if algorithm = "DE" then PyOutcome.value vDe
  else PyOutcome.returnNone

/-- C9 (amended): `EIMmixedoptimiser` raises NotImplementedError for ANY
algorithm name other than 'Random' and 'Random Local' (including 'SHGO' and
'DE', which only the sibling dispatcher recognises); `AEIMmixedoptimiser`,
for any name outside its four recognised ones, silently returns `None`
(bare `return`), it does not raise. -/
theorem dispatch_unrecognised {α : Type} (vR vRL vS vD : α) (constraints : Bool)
    (algorithm : String) (h1 : algorithm ≠ "Random") (h2 : algorithm ≠ "Random Local") :
    EIMmixedoptimiser_dispatch vR vRL algorithm = PyOutcome.raiseNotImplemented ∧
    (algorithm ≠ "SHGO" → algorithm ≠ "DE" →
      AEIMmixedoptimiser_dispatch constraints vR vRL vS vD algorithm =
        PyOutcome.returnNone) := by
  constructor
  · simp [EIMmixedoptimiser_dispatch, h1, h2]
  · intro h3 h4
    simp [AEIMmixedoptimiser_dispatch, h1, h2, h3, h4]

theorem dispatch_unrecognised_witness :
    (EIMmixedoptimiser_dispatch (0:ℕ) 1 "Simplical" = PyOutcome.raiseNotImplemented ∧
      AEIMmixedoptimiser_dispatch false (0:ℕ) 1 2 3 "Simplical" = PyOutcome.returnNone) ∧
    EIMmixedoptimiser_dispatch (0:ℕ) 1 "SHGO" = PyOutcome.raiseNotImplemented := by
  have hsim := dispatch_unrecognised (0:ℕ) 1 2 3 false "Simplical" (by decide) (by decide)
  have hshgo := dispatch_unrecognised (0:ℕ) 1 2 3 false "SHGO" (by decide) (by decide)
  exact ⟨⟨hsim.1, hsim.2 (by decide) (by decide)⟩, hshgo.1⟩

/-- C9 counterexample: on the unrecognised name "Annealing",
`AEIMmixedoptimiser` yields `None` rather than raising a not-implemented
error, refuting the claim that both dispatchers fail fast. -/
theorem AEIM_dispatch_counterexample :
    AEIMmixedoptimiser_dispatch false (0:ℕ) 1 2 3 "Annealing" = PyOutcome.returnNone ∧
    AEIMmixedoptimiser_dispatch false (0:ℕ) 1 2 3 "Annealing" ≠
      PyOutcome.raiseNotImplemented := by
  decide

/-! The 'Random Local' branch of `EIMmixedoptimiser` (lines 326-376). -/

/-- `np.argmax`: index of the first occurrence of the maximum (0 on an empty
list in this embedding; the call sites always pass 10000 samples). -/
def argmaxIdx : List ℚ → ℕ
  | [] => 0
  | x :: xs => if xs.getD (argmaxIdx xs) x ≤ x then 0 else argmaxIdx xs + 1

theorem argmaxIdx_lt_length : ∀ (l : List ℚ), l ≠ [] → argmaxIdx l < l.length
  | [], h => absurd rfl h
  | x :: xs, _ => by
      rw [argmaxIdx]
      by_cases hc : xs.getD (argmaxIdx xs) x ≤ x
      · rw [if_pos hc]
        simp
      · rw [if_neg hc]
        have hxs : xs ≠ [] := by
          intro he
          subst he
          simp at hc
        have hrec := argmaxIdx_lt_length xs hxs
        simpa using Nat.succ_lt_succ hrec

theorem argmaxIdx_spec : ∀ (l : List ℚ) (j : ℕ), j < l.length →
    l.getD j 0 ≤ l.getD (argmaxIdx l) 0
  | [], j, hj => by simp at hj
  | x :: xs, j, hj => by
      rw [argmaxIdx]
      by_cases hc : xs.getD (argmaxIdx xs) x ≤ x
      · rw [if_pos hc]
        match j with
        | 0 => simp [List.getD]
        | k + 1 =>
            have hk : k < xs.length := by simpa using hj
            have h1 := argmaxIdx_spec xs k hk
            have hxs : xs ≠ [] := by
              intro he
              subst he
              simp at hk
            have hlt := argmaxIdx_lt_length xs hxs
            have h2 : xs.getD (argmaxIdx xs) x = xs.getD (argmaxIdx xs) 0 := by
              rw [List.getD_eq_getElem _ _ hlt, List.getD_eq_getElem _ _ hlt]
            simp only [List.getD_cons_succ]
            calc xs.getD k 0 ≤ xs.getD (argmaxIdx xs) 0 := h1
              _ = xs.getD (argmaxIdx xs) x := h2.symm
              _ ≤ x := hc
              _ = (x :: xs).getD 0 0 := by simp [List.getD]
      · rw [if_neg hc]
        have hxs : xs ≠ [] := by
          intro he
          subst he
          simp at hc
        have hlt := argmaxIdx_lt_length xs hxs
        have h2 : xs.getD (argmaxIdx xs) x = xs.getD (argmaxIdx xs) 0 := by
          rw [List.getD_eq_getElem _ _ hlt, List.getD_eq_getElem _ _ hlt]
        match j with
        | 0 =>
            have := le_of_not_le hc
            simp only [List.getD_cons_zero, List.getD_cons_succ]
            rw [← h2]
            exact this
        | k + 1 =>
            have hk : k < xs.length := by simpa using hj
            simpa using argmaxIdx_spec xs k hk

/-- `EIMoptimiserWrapper` (lines 291-298), unconstrained case: concatenate
the continuous and qualitative parts and return the NEGATED acquisition
(line 298; SLSQP minimises).  The acquisition `acq` abstracts
`self.EIM(X, mode)` for the fixed model/front state. -/
def EIMoptimiserWrapper (acq : List ℚ → ℚ) (Xcont Xqual : List ℚ) : ℚ :=
  -(acq (Xcont ++ Xqual))

/-- The single-criterion 'Random Local' branch of `EIMmixedoptimiser`
(lines 326-374, `values is None`): evaluate the acquisition on the sampled
batch, take the argmax sample `xmax` (lines 360-362), fix
`qual = xmax[num_quant:]` (line 363), refine the continuous part from
`xmax[:num_quant]` with the negated wrapper as objective (line 371;
`localMin` abstracts `scipy.optimize.minimize(..., method='SLSQP').x`, and
`result.fun` is the objective value at `result.x`), and return
`(result.fun, np.concatenate((result.x, qual)))` (line 374). -/
def EIMmixedoptimiser_randomLocal (acq : List ℚ → ℚ) (samples : List (List ℚ))
    (num_quant : ℕ) (localMin : (List ℚ → ℚ) → List ℚ → List ℚ) : ℚ × List ℚ :=
  let fvals := samples.map acq
  let xmax := samples.getD (argmaxIdx fvals) []
  let qual := xmax.drop num_quant
  let obj := fun xc => EIMoptimiserWrapper acq xc qual
  let xres := localMin obj (xmax.take num_quant)
  (obj xres, xres ++ qual)

/-- C7 counterexample: with the constant acquisition `1`, the returned
scalar is `-1`, the minimiser objective value, while the acquisition at the
returned point is `1`: the value is NOT negated back to the maximisation
sign. -/
theorem randomLocal_sign_counterexample :
    (EIMmixedoptimiser_randomLocal (fun _ => 1) [[0, 5]] 1 (fun _ x0 => x0)).1 = -1 ∧
    (fun _ => (1:ℚ))
      ((EIMmixedoptimiser_randomLocal (fun _ => 1) [[0, 5]] 1 (fun _ x0 => x0)).2) = 1 ∧
    ((-1 : ℚ) ≠ 1) := by
  refine ⟨rfl, rfl, by norm_num⟩

/-- C7 (amended): the branch returns the locally refined continuous
coordinates concatenated with the global winner's fixed qualitative
assignment, and the scalar it returns is the minimiser's objective value,
i.e. the NEGATED acquisition at the returned point (no negation back).  The
qualitative part comes from the argmax over the sampled acquisition
values. -/
theorem randomLocal_return_spec (acq : List ℚ → ℚ) (samples : List (List ℚ))
    (num_quant : ℕ) (localMin : (List ℚ → ℚ) → List ℚ → List ℚ) :
    (EIMmixedoptimiser_randomLocal acq samples num_quant localMin =
      (let xmax := samples.getD (argmaxIdx (samples.map acq)) []
       let qual := xmax.drop num_quant
       let xres := localMin (fun xc => EIMoptimiserWrapper acq xc qual) (xmax.take num_quant)
       (-(acq (xres ++ qual)), xres ++ qual))) ∧
    (∀ j, j < samples.length →
      (samples.map acq).getD j 0 ≤
        (samples.map acq).getD (argmaxIdx (samples.map acq)) 0) := by
  constructor
  · rfl
  · intro j hj
    exact argmaxIdx_spec (samples.map acq) j (by simpa using hj)

theorem randomLocal_return_spec_witness :
    ([(1:ℚ), 3, 2].getD 0 0 ≤ [(1:ℚ), 3, 2].getD (argmaxIdx [(1:ℚ), 3, 2]) 0) := by
  have h := (randomLocal_return_spec (fun l => l.headD 0) [[1], [3], [2]] 1
    (fun _ x0 => x0)).2 0 (by decide)
  simpa using h

/-! The EIM acquisition (lines 71-133) and its adaptive hypervolume variant
(lines 196-239), per candidate.  External pieces are parameters: `cdf`/`pdf`
are scipy's `norm.cdf`/`norm.pdf`, `sqrtFn` is `np.sqrt`, and the posterior
mean/variance vectors returned by the model bank are inputs. -/

/-- `np.reshape(arr, shape)`: defined only when the array size equals the
product of the shape (the flat data is preserved). -/
def npReshape (l : List ℚ) (shape : List ℕ) : Option (List ℚ) :=
  if l.length = shape.prod then some l else none

/-- One EI matrix entry `(f - u)·Φ(Z) + σ·φ(Z)` with `Z = (f - u)/σ`
(lines 115-116 and 173-174). -/
def eiEntry (cdf pdf : ℚ → ℚ) (fj uj sj : ℚ) : ℚ :=
  (fj - uj) * cdf ((fj - uj) / sj) + sj * pdf ((fj - uj) / sj)

/-- One row of the EI matrix: one entry per objective for a fixed front
point. -/
def eimRow (cdf pdf : ℚ → ℚ) : List ℚ → List ℚ → List ℚ → List ℚ
  | fj :: fs, uj :: us, sj :: ss => eiEntry cdf pdf fj uj sj :: eimRow cdf pdf fs us ss
  | _, _, _ => []

/-- `np.min` over a vector (0 on the empty list; numpy raises there, and the
call sites always have a nonempty front). -/
def minList : List ℚ → ℚ
  | [] => 0
  | x :: xs => xs.foldl min x

def maxList : List ℚ → ℚ
  | [] => 0
  | x :: xs => xs.foldl max x

/-- Euclidean aggregation `min over front of sqrt(sum EI², over objectives)`
(line 118). -/
def euclidAgg (sqrtFn : ℚ → ℚ) (eims : List (List ℚ)) : ℚ :=
  minList (eims.map fun row => sqrtFn ((row.map fun e => e * e).sum))

/-- Max-min aggregation (line 122). -/
def maxminAgg (eims : List (List ℚ)) : ℚ :=
  minList (eims.map maxList)

/-- The hypervolume term for one front row:
`prod(r - f + EI) - prod(r - f)` over objectives (lines 120 and 175). -/
def hvTerm (r frow eirow : List ℚ) : ℚ :=
  (List.zipWith (fun rf e => rf + e)
      (List.zipWith (fun rj fj => rj - fj) r frow) eirow).prod -
    (List.zipWith (fun rj fj => rj - fj) r frow).prod

/-- Hypervolume aggregation: minimum of the terms over the front. -/
def hvAgg (r : List ℚ) (front : List (List ℚ)) (eims : List (List ℚ)) : ℚ :=
  minList (List.zipWith (fun frow eirow => hvTerm r frow eirow) front eims)

/-- `EIM(X, mode)` (lines 71-133) for one candidate with posterior means `u`
and variances `var` (σ = sqrt(max(0, var)), line 110), current front `f` and
`r = 1.1·ones((1, nobj))` (line 95).  The hypervolume, combine and
default/'all' branches reshape `r` to the fixed shape (1,2,1) (lines 120,
125, 129), which numpy rejects unless `r` holds exactly 2 entries; that
failure is modelled by `npReshape` returning `none`. -/
def EIM (cdf pdf sqrtFn : ℚ → ℚ) (front : List (List ℚ)) (u var : List ℚ)
    (mode : String) : Option (List ℚ) :=
  let nobj := (front.headD []).length
  let r : List ℚ := List.replicate nobj (mkRat 11 10)
  let s : List ℚ := var.map fun v => sqrtFn (max 0 v)
  let eims : List (List ℚ) := front.map fun frow => eimRow cdf pdf frow u s
  if mode = "euclidean" then some [euclidAgg sqrtFn eims]
  else if mode = "hypervolume" then
    (npReshape r [1, 2, 1]).map fun r2 => [hvAgg r2 front eims]
  else if mode = "maxmin" then some [maxminAgg eims]
  else if mode = "combine" then
    (npReshape r [1, 2, 1]).map fun r2 => [euclidAgg sqrtFn eims + hvAgg r2 front eims]
  else
    (npReshape r [1, 2, 1]).map fun r2 => [euclidAgg sqrtFn eims, hvAgg r2 front eims]

/-- One adaptive EI entry: `Z` is shifted by the contextual offset
(line 230) while the `(f - u)` factor outside is unshifted (line 231). -/
def aeiEntry (cdf pdf : ℚ → ℚ) (fj uj cj sj : ℚ) : ℚ :=
  (fj - uj) * cdf ((fj - uj - cj) / sj) + sj * pdf ((fj - uj - cj) / sj)

def aeimRow (cdf pdf : ℚ → ℚ) : List ℚ → List ℚ → List ℚ → List ℚ → List ℚ
  | fj :: fs, uj :: us, cj :: cs, sj :: ss =>
      aeiEntry cdf pdf fj uj cj sj :: aeimRow cdf pdf fs us cs ss
  | _, _, _, _ => []

/-- `AEIM_Hypervolume(X)` (lines 196-239) for one candidate: contextual
matrix `ctx` has one row per front point (line 229), and the same
`r.reshape(1,2,1)` hypervolume aggregation is applied (line 232). -/
def AEIM_Hypervolume (cdf pdf sqrtFn : ℚ → ℚ) (front ctx : List (List ℚ))
    (u var : List ℚ) : Option (List ℚ) :=
  let nobj := (front.headD []).length
  let r : List ℚ := List.replicate nobj (mkRat 11 10)
  let s : List ℚ := var.map fun v => sqrtFn (max 0 v)
  let eims : List (List ℚ) :=
    List.zipWith (fun frow crow => aeimRow cdf pdf frow u crow s) front ctx
  (npReshape r [1, 2, 1]).map fun r2 => [hvAgg r2 front eims]

/-- C10: in every mode that is not 'euclidean' and not 'maxmin' (that is,
'hypervolume', 'combine' and the default/'all' fallthrough), and in
`AEIM_Hypervolume`, the reshape of the reference vector `r` to shape (1,2,1)
makes the evaluation fail exactly when the number of objectives differs from
2, and succeed whenever it is exactly 2. -/
theorem EIM_reshape_two_objectives (cdf pdf sqrtFn : ℚ → ℚ)
    (front ctx : List (List ℚ)) (u var : List ℚ) (mode : String)
    (hmode : mode ≠ "euclidean" ∧ mode ≠ "maxmin") :
    ((EIM cdf pdf sqrtFn front u var mode).isSome ↔ (front.headD []).length = 2) ∧
    ((AEIM_Hypervolume cdf pdf sqrtFn front ctx u var).isSome ↔
      (front.headD []).length = 2) := by
  have hre : ∀ n : ℕ, (npReshape (List.replicate n (mkRat 11 10)) [1, 2, 1]).isSome
      ↔ n = 2 := by
    intro n
    rw [npReshape]
    by_cases hn : n = 2
    · simp [hn]
    · rw [if_neg (by simpa using hn)]
      simp [hn]
  constructor
  · rw [EIM, if_neg (by simpa using hmode.1)]
    by_cases h2 : mode = "hypervolume"
    · rw [if_pos h2]
      simpa using hre (front.headD []).length
    · rw [if_neg h2, if_neg (by simpa using hmode.2)]
      by_cases h4 : mode = "combine"
      · rw [if_pos h4]
        simpa using hre (front.headD []).length
      · rw [if_neg h4]
        simpa using hre (front.headD []).length
  · rw [AEIM_Hypervolume]
    simpa using hre (front.headD []).length

theorem EIM_reshape_two_objectives_witness :
    ((EIM id id id [[(0:ℚ), 0]] [] [] "hypervolume").isSome = true) ∧
    ((EIM id id id [[(0:ℚ), 0, 0]] [] [] "hypervolume").isSome = false) := by
  constructor
  · exact (EIM_reshape_two_objectives id id id [[(0:ℚ), 0]] [] [] []
      "hypervolume" (by decide)).1.mpr rfl
  · have h := (EIM_reshape_two_objectives id id id [[(0:ℚ), 0, 0]] [] [] []
      "hypervolume" (by decide)).1
    by_contra hcon
    have : (EIM id id id [[(0:ℚ), 0, 0]] [] [] "hypervolume").isSome = true := by
      revert hcon
      cases (EIM id id id [[(0:ℚ), 0, 0]] [] [] "hypervolume").isSome <;> simp
    exact absurd (h.1 this) (by decide)

/-! `CEIM_Hypervolume` (lines 135-194), per candidate. -/

/-- The per-candidate objective part of `CEIM_Hypervolume` (lines 172-175):
`y[ix] = min over the front of (prod(r - f + EIM) - prod(r - f))` with
`r = 1.1·ones((1, nobj))` (line 157; this function has no (1,2,1) reshape,
`r` broadcasts with its `nobj` entries). -/
def ceimY (cdf pdf : ℚ → ℚ) (front : List (List ℚ)) (u s : List ℚ) : ℚ :=
  minList (front.map fun frow =>
    hvTerm (List.replicate (front.headD []).length (mkRat 11 10)) frow
      (eimRow cdf pdf frow u s))

/-- The probability of feasibility `PoF = Π_k Φ((0 - u_k)/σ_k)` over the
constraint models (line 192). -/
def pof (cdf : ℚ → ℚ) (ucon scon : List ℚ) : ℚ :=
  (List.zipWith (fun uk sk => cdf ((0 - uk) / sk)) ucon scon).prod

/-- `CEIM_Hypervolume(X)` (lines 135-194): per candidate, the hypervolume
EIM value times the probability of feasibility (`return y * PoF`, line 194).
Each candidate is an objective `(mean, var)` pair and a constraint
`(mean, var)` pair; σ is `sqrt(max(0, var))` on both sides (lines 170,
190). -/
def CEIM_Hypervolume (cdf pdf sqrtFn : ℚ → ℚ) (front : List (List ℚ))
    (objPreds conPreds : List ((List ℚ) × (List ℚ))) : List ℚ :=
  (objPreds.zip conPreds).map fun pc =>
    ceimY cdf pdf front pc.1.1 (pc.1.2.map fun v => sqrtFn (max 0 v)) *
      pof cdf pc.2.1 (pc.2.2.map fun v => sqrtFn (max 0 v))

/-- A computable monotone stand-in for a cumulative distribution function,
used to instantiate the external `norm.cdf` in concrete evaluations. -/
def stepCdf : ℚ → ℚ := fun x => if 0 < x then 1 else 0

theorem stepCdf_monotone : Monotone stepCdf := by
  intro a b hab
  simp only [stepCdf]
  by_cases ha : 0 < a
  · rw [if_pos ha, if_pos (lt_of_lt_of_le ha hab)]
  · rw [if_neg ha]
    by_cases hb : 0 < b
    · rw [if_pos hb]
      norm_num
    · rw [if_neg hb]

theorem stepCdf_nonneg (x : ℚ) : 0 ≤ stepCdf x ∧ stepCdf x ≤ 1 := by
  rw [stepCdf]
  by_cases hx : 0 < x
  · rw [if_pos hx]
    norm_num
  · rw [if_neg hx]
    norm_num

/-- Antitonicity of the feasibility probability: raising any constraint
posterior mean (componentwise) cannot raise `PoF`, and `PoF` stays
nonnegative, for any monotone nonnegative cdf and nonnegative σ. -/
theorem pof_anti (cdf : ℚ → ℚ) (hmono : Monotone cdf) (hpos : ∀ x, 0 ≤ cdf x) :
    ∀ (ucon ucon' scon : List ℚ), (∀ x ∈ scon, 0 ≤ x) →
      List.Forall₂ (· ≤ ·) ucon ucon' →
      0 ≤ pof cdf ucon' scon ∧ pof cdf ucon' scon ≤ pof cdf ucon scon := by
  intro ucon ucon' scon hs h
  induction h generalizing scon with
  | nil => simp [pof]
  | @cons a b t t2 hab ht ih =>
      cases scon with
      | nil => simp [pof]
      | cons s ss =>
          have hs0 : 0 ≤ s := hs s (by simp)
          have hss : ∀ x ∈ ss, 0 ≤ x := fun x hx => hs x (by simp [hx])
          obtain ⟨ihpos, ihle⟩ := ih ss hss
          have hfac : cdf ((0 - b) / s) ≤ cdf ((0 - a) / s) := by
            rcases eq_or_lt_of_le hs0 with hz | hps
            · rw [← hz, div_zero, div_zero]
            · apply hmono
              rw [div_le_div_iff_of_pos_right hps]
              linarith
          have hpof : pof cdf (a :: t) (s :: ss) =
              cdf ((0 - a) / s) * pof cdf t ss := by
            rw [pof, pof, List.zipWith_cons_cons, List.prod_cons]
          have hpof2 : pof cdf (b :: t2) (s :: ss) =
              cdf ((0 - b) / s) * pof cdf t2 ss := by
            rw [pof, pof, List.zipWith_cons_cons, List.prod_cons]
          constructor
          · rw [hpof2]
            exact mul_nonneg (hpos _) ihpos
          · rw [hpof, hpof2]
            exact mul_le_mul hfac ihle ihpos (hpos _)

/-- C6 (amended): per candidate, `CEIM_Hypervolume` is the hypervolume EIM
value `y` times the probability of feasibility `PoF = Π_k Φ((0 - u_k)/σ_k)`,
and the output is non-increasing in the constraint posterior means PROVIDED
the objective part `y` of that candidate is nonnegative (as it is whenever
the scaled front lies below the reference 1.1 and the EI entries are
nonnegative); with `y < 0` the output increases instead, see the
counterexample. -/
theorem CEIM_Hypervolume_spec (cdf pdf sqrtFn : ℚ → ℚ) (front : List (List ℚ))
    (objPreds conPreds : List ((List ℚ) × (List ℚ))) :
    (CEIM_Hypervolume cdf pdf sqrtFn front objPreds conPreds =
      (objPreds.zip conPreds).map fun pc =>
        ceimY cdf pdf front pc.1.1 (pc.1.2.map fun v => sqrtFn (max 0 v)) *
          pof cdf pc.2.1 (pc.2.2.map fun v => sqrtFn (max 0 v))) ∧
    (∀ (u var ucon ucon' convar : List ℚ),
        Monotone cdf → (∀ x, 0 ≤ cdf x) → (∀ x, 0 ≤ sqrtFn x) →
        0 ≤ ceimY cdf pdf front u (var.map fun v => sqrtFn (max 0 v)) →
        List.Forall₂ (· ≤ ·) ucon ucon' →
        (CEIM_Hypervolume cdf pdf sqrtFn front [(u, var)] [(ucon', convar)]).getD 0 0 ≤
          (CEIM_Hypervolume cdf pdf sqrtFn front [(u, var)] [(ucon, convar)]).getD 0 0) := by
  constructor
  · rfl
  · intro u var ucon ucon' convar hmono hpos hsq hy hle
    have hsnn : ∀ x ∈ (convar.map fun v => sqrtFn (max 0 v)), 0 ≤ x := by
      intro x hx
      obtain ⟨v, _, rfl⟩ := List.mem_map.1 hx
      exact hsq _
    obtain ⟨hp0, hple⟩ := pof_anti cdf hmono hpos ucon ucon'
      (convar.map fun v => sqrtFn (max 0 v)) hsnn hle
    have h1 : (CEIM_Hypervolume cdf pdf sqrtFn front [(u, var)] [(ucon', convar)]).getD 0 0 =
        ceimY cdf pdf front u (var.map fun v => sqrtFn (max 0 v)) *
          pof cdf ucon' (convar.map fun v => sqrtFn (max 0 v)) := by
      rfl
    have h2 : (CEIM_Hypervolume cdf pdf sqrtFn front [(u, var)] [(ucon, convar)]).getD 0 0 =
        ceimY cdf pdf front u (var.map fun v => sqrtFn (max 0 v)) *
          pof cdf ucon (convar.map fun v => sqrtFn (max 0 v)) := by
      rfl
    rw [h1, h2]
    exact mul_le_mul_of_nonneg_left hple hy

theorem CEIM_Hypervolume_spec_witness :
    (CEIM_Hypervolume stepCdf (fun _ => 0) (fun _ => 1) [[0, 0]]
        [([0, 0], [1, 1])] [([1], [1])]).getD 0 0 ≤
      (CEIM_Hypervolume stepCdf (fun _ => 0) (fun _ => 1) [[0, 0]]
        [([0, 0], [1, 1])] [([0], [1])]).getD 0 0 := by
  apply (CEIM_Hypervolume_spec stepCdf (fun _ => 0) (fun _ => 1) [[0, 0]] [] []).2
    [0, 0] [1, 1] [0] [1] [1]
    stepCdf_monotone (fun x => (stepCdf_nonneg x).1) (fun _ => by norm_num)
  · norm_num [ceimY, hvTerm, eimRow, eiEntry, minList, stepCdf, List.replicate]
  · exact List.Forall₂.cons (by norm_num) List.Forall₂.nil

/-- C6 counterexample: when the front lies above the reference value 1.1
(possible after external scaling), the per-candidate objective value `y` is
negative, and raising the constraint posterior mean from -1 to 1 then
RAISES the output (from `y·Φ(1) < 0` towards `y·Φ(-1) ≈ 0`): the claimed
monotone non-increase fails even for a monotone, [0,1]-valued cdf. -/
theorem CEIM_monotone_counterexample :
    Monotone stepCdf ∧ (∀ x, 0 ≤ stepCdf x ∧ stepCdf x ≤ 1) ∧
    (CEIM_Hypervolume stepCdf (fun _ => 0) (fun _ => 1) [[2, 2]]
        [([mkRat 11 10, mkRat 11 10], [1, 1])] [([-1], [1])]).getD 0 0 <
      (CEIM_Hypervolume stepCdf (fun _ => 0) (fun _ => 1) [[2, 2]]
        [([mkRat 11 10, mkRat 11 10], [1, 1])] [([1], [1])]).getD 0 0 := by
  refine ⟨stepCdf_monotone, stepCdf_nonneg, ?_⟩
  norm_num [CEIM_Hypervolume, ceimY, pof, hvTerm, eimRow, eiEntry, minList,
    stepCdf, List.replicate, mkRat]

end MVMOO
